import Mathlib

/-!
Verification of the rome_rowan CST engine (crates/rome_rowan/src/api.rs).

The typed facade in api.rs is translated directly.  The green tree, the
red cursor and the builder live in sibling modules that are not part of
this source snapshot; they are modelled from the specification (spec.md
sections 3, 4.2, 4.4 and 4.6), as marked on each definition.
-/

namespace Rowan

/-- Translated from api.rs `TriviaPiece`: a trivia descriptor stores only a
byte length, tagged as whitespace or comments. -/
inductive TriviaPiece where
  | whitespace (n : Nat)
  | comments (n : Nat)
deriving DecidableEq

/-- Translated from api.rs `TriviaPiece::text_len`. -/
def TriviaPiece.text_len : TriviaPiece → Nat
  | .whitespace n => n
  | .comments n => n

/-- Modelled from the spec: `GreenToken` (green tree module absent from src):
kind, exact text including its own leading/trailing trivia bytes, and the
trivia piece-length lists for each side. -/
structure GreenToken where
  kind : Nat
  text : List Char
  leading : List TriviaPiece
  trailing : List TriviaPiece
deriving DecidableEq

/-- Total length of a token's leading trivia pieces. -/
def leadingLen (t : GreenToken) : Nat :=
  (t.leading.map TriviaPiece.text_len).sum

/-- Total length of a token's trailing trivia pieces. -/
def trailingLen (t : GreenToken) : Nat :=
  (t.trailing.map TriviaPiece.text_len).sum

/-- Modelled from the spec: a green node slot holds a child node, a child
token, or the explicit `Empty` placeholder produced by `missing()`; a
`GreenNode` is a kind together with its ordered slot list (green tree
module absent from src). -/
inductive GreenElement where
  | node (kind : Nat) (slots : List GreenElement)
  | token (tok : GreenToken)
  | empty

mutual

/-- Structural boolean equality on green elements. -/
def geBeq : GreenElement → GreenElement → Bool
  | .node k1 s1, .node k2 s2 => decide (k1 = k2) && geBeqList s1 s2
  | .token t1, .token t2 => decide (t1 = t2)
  | .empty, .empty => true
  | _, _ => false

/-- Structural boolean equality on slot lists. -/
def geBeqList : List GreenElement → List GreenElement → Bool
  | [], [] => true
  | x :: xs, y :: ys => geBeq x y && geBeqList xs ys
  | _, _ => false

end

mutual

theorem geBeq_iff : (a b : GreenElement) → (geBeq a b = true ↔ a = b)
  | .node k1 s1, .node k2 s2 => by
      simp [geBeq, geBeqList_iff s1 s2]
  | .node _ _, .token _ => by simp [geBeq]
  | .node _ _, .empty => by simp [geBeq]
  | .token _, .node _ _ => by simp [geBeq]
  | .token t1, .token t2 => by simp [geBeq]
  | .token _, .empty => by simp [geBeq]
  | .empty, .node _ _ => by simp [geBeq]
  | .empty, .token _ => by simp [geBeq]
  | .empty, .empty => by simp [geBeq]

theorem geBeqList_iff : (xs ys : List GreenElement) → (geBeqList xs ys = true ↔ xs = ys)
  | [], [] => by simp [geBeqList]
  | [], _ :: _ => by simp [geBeqList]
  | _ :: _, [] => by simp [geBeqList]
  | x :: xs, y :: ys => by
      simp [geBeqList, geBeq_iff x y, geBeqList_iff xs ys]

end

instance : DecidableEq GreenElement := fun a b =>
  decidable_of_iff (geBeq a b = true) (geBeq_iff a b)

/-- Whether an element is a node. -/
def GreenElement.isNode : GreenElement → Bool
  | .node _ _ => true
  | _ => false

/-- Whether a slot is the `Empty` placeholder. -/
def GreenElement.isEmptySlot : GreenElement → Bool
  | .empty => true
  | _ => false

/-- Kind of a node or token element; an empty slot has no kind. -/
def GreenElement.kindOf : GreenElement → Option Nat
  | .node k _ => some k
  | .token t => some t.kind
  | .empty => none

/-- Slot list of an element (empty for tokens and empty slots). -/
def GreenElement.slots : GreenElement → List GreenElement
  | .node _ s => s
  | _ => []

mutual

/-- Modelled from the spec: aggregate text length of a green element; an
empty slot contributes zero, a token its full text length, a node the sum
over its slots (spec.md section 3, invariant 1). -/
def GreenElement.textLen : GreenElement → Nat
  | .node _ slots => textLenList slots
  | .token t => t.text.length
  | .empty => 0

/-- Sum of the text lengths of a slot list. -/
def textLenList : List GreenElement → Nat
  | [] => 0
  | s :: rest => s.textLen + textLenList rest

end

mutual

/-- Modelled from the spec: full text of a green element, the exact
original source text reconstruction including all trivia (cursor module
absent from src; api.rs `SyntaxNode::text` delegates to it). -/
def GreenElement.text : GreenElement → List Char
  | .node _ slots => textList slots
  | .token t => t.text
  | .empty => []

/-- Concatenated text of a slot list, in positional order. -/
def textList : List GreenElement → List Char
  | [] => []
  | s :: rest => s.text ++ textList rest

end

mutual

/-- Descendant tokens of a green element in document order. -/
def GreenElement.tokens : GreenElement → List GreenToken
  | .node _ slots => tokensList slots
  | .token t => [t]
  | .empty => []

/-- Descendant tokens of a slot list, in document order. -/
def tokensList : List GreenElement → List GreenToken
  | [] => []
  | s :: rest => s.tokens ++ tokensList rest

end

/-- Concatenation of the full texts of a token list, in order. -/
def concatTexts : List GreenToken → List Char
  | [] => []
  | t :: ts => t.text ++ concatTexts ts

mutual

/-- Modelled from the spec: leftmost descendant token of an element
(cursor `first_token`; api.rs `SyntaxNode::first_token` delegates to it). -/
def GreenElement.first_token : GreenElement → Option GreenToken
  | .node _ slots => firstTokenList slots
  | .token t => some t
  | .empty => none

/-- Leftmost descendant token of a slot list. -/
def firstTokenList : List GreenElement → Option GreenToken
  | [] => none
  | s :: rest =>
    match s.first_token with
    | some t => some t
    | none => firstTokenList rest

end

mutual

/-- Modelled from the spec: rightmost descendant token of an element
(cursor `last_token`; api.rs `SyntaxNode::last_token` delegates to it). -/
def GreenElement.last_token : GreenElement → Option GreenToken
  | .node _ slots => lastTokenList slots
  | .token t => some t
  | .empty => none

/-- Rightmost descendant token of a slot list. -/
def lastTokenList : List GreenElement → Option GreenToken
  | [] => none
  | s :: rest =>
    match lastTokenList rest with
    | some t => some t
    | none => s.last_token

end

/-- Leading-trivia length of the first descendant token (zero if none). -/
def trimmedStartOffset (e : GreenElement) : Nat :=
  match e.first_token with
  | some t => leadingLen t
  | none => 0

/-- Trailing-trivia length of the last descendant token (zero if none). -/
def trimmedEndCut (e : GreenElement) : Nat :=
  match e.last_token with
  | some t => trailingLen t
  | none => 0

/-- Modelled from the spec: cursor `text_trimmed` (api.rs
`SyntaxNode::text_trimmed` delegates to it): the text over the trimmed
range, which starts after the first token's leading trivia and stops
before the last token's trailing trivia (spec.md section 4.2). -/
def GreenElement.text_trimmed (e : GreenElement) : List Char :=
  (e.text.drop (trimmedStartOffset e)).take
    (e.textLen - trimmedEndCut e - trimmedStartOffset e)

/-- Text of a token's leading trivia span. -/
def leadingText (t : GreenToken) : List Char :=
  t.text.take (leadingLen t)

/-- Text of a token's trailing trivia span. -/
def trailingText (t : GreenToken) : List Char :=
  t.text.drop (t.text.length - trailingLen t)

/-- Builder protocol events, translated from the api.rs `TreeBuilder`
usage sites and spec.md section 4.6. -/
inductive BuildEvent where
  | startNode (kind : Nat)
  | token (kind : Nat) (text : List Char)
  | tokenWithTrivia (kind : Nat) (text : List Char)
      (leading : List TriviaPiece) (trailing : List TriviaPiece)
  | missing
  | finishNode
deriving DecidableEq

/-- Modelled from the spec: the event-driven builder (builder module
absent from src; spec.md section 4.6): `startNode` pushes a frame, token
events append a leaf, `missing` appends an `Empty` slot, `finishNode`
seals the frame; the tree is sealed exactly once when the outermost frame
finishes, and unbalanced nesting yields no tree. -/
def build : List BuildEvent → List (Nat × List GreenElement) → Option GreenElement
  | [], _ => none
  | ev :: rest, stack =>
    match ev, stack with
    | .startNode k, st => build rest ((k, []) :: st)
    | .token k t, (fk, acc) :: st =>
        build rest ((fk, acc ++ [GreenElement.token ⟨k, t, [], []⟩]) :: st)
    | .tokenWithTrivia k t ld tr, (fk, acc) :: st =>
        build rest ((fk, acc ++ [GreenElement.token ⟨k, t, ld, tr⟩]) :: st)
    | .missing, (fk, acc) :: st =>
        build rest ((fk, acc ++ [GreenElement.empty]) :: st)
    | .finishNode, (fk, acc) :: (gk, gacc) :: st =>
        build rest ((gk, gacc ++ [GreenElement.node fk acc]) :: st)
    | .finishNode, [(fk, acc)] =>
        if rest.isEmpty then some (GreenElement.node fk acc) else none
    | _, [] => none

theorem concatTexts_append (xs ys : List GreenToken) :
    concatTexts (xs ++ ys) = concatTexts xs ++ concatTexts ys := by
  induction xs with
  | nil => rfl
  | cons t ts ih => simp [concatTexts, ih]

mutual

theorem text_eq_concatTexts : (e : GreenElement) → e.text = concatTexts e.tokens
  | .node _ slots => by
      simpa [GreenElement.text, GreenElement.tokens] using textList_eq_concatTexts slots
  | .token t => by simp [GreenElement.text, GreenElement.tokens, concatTexts]
  | .empty => rfl

theorem textList_eq_concatTexts :
    (l : List GreenElement) → textList l = concatTexts (tokensList l)
  | [] => rfl
  | s :: rest => by
      simp [textList, tokensList, concatTexts_append,
        text_eq_concatTexts s, textList_eq_concatTexts rest]

end

mutual

theorem textLen_eq_length : (e : GreenElement) → e.textLen = e.text.length
  | .node _ slots => by
      simpa [GreenElement.textLen, GreenElement.text] using textLenList_eq_length slots
  | .token t => rfl
  | .empty => rfl

theorem textLenList_eq_length :
    (l : List GreenElement) → textLenList l = (textList l).length
  | [] => rfl
  | s :: rest => by
      simp [textLenList, textList, textLen_eq_length s, textLenList_eq_length rest]

end

theorem head?_append_match {α : Type} (xs ys : List α) :
    (xs ++ ys).head? =
      (match xs.head? with
       | some t => some t
       | none => ys.head?) := by
  cases xs <;> simp

mutual

theorem first_token_eq_head : (e : GreenElement) → e.first_token = e.tokens.head?
  | .node _ slots => by
      simpa [GreenElement.first_token, GreenElement.tokens] using firstTokenList_eq_head slots
  | .token t => rfl
  | .empty => rfl

theorem firstTokenList_eq_head :
    (l : List GreenElement) → firstTokenList l = (tokensList l).head?
  | [] => rfl
  | s :: rest => by
      rw [firstTokenList, tokensList, head?_append_match,
        first_token_eq_head s, firstTokenList_eq_head rest]
      cases s.tokens.head? <;> rfl

end

theorem getLast?_append_match {α : Type} (xs ys : List α) :
    (xs ++ ys).getLast? =
      (match ys.getLast? with
       | some t => some t
       | none => xs.getLast?) := by
  rcases List.eq_nil_or_concat ys with h | ⟨zs, z, h⟩
  · subst h; simp
  · subst h
    rw [List.concat_eq_append, ← List.append_assoc]
    simp [List.getLast?_concat]

mutual

theorem last_token_eq_getLast : (e : GreenElement) → e.last_token = e.tokens.getLast?
  | .node _ slots => by
      simpa [GreenElement.last_token, GreenElement.tokens] using lastTokenList_eq_getLast slots
  | .token t => rfl
  | .empty => rfl

theorem lastTokenList_eq_getLast :
    (l : List GreenElement) → lastTokenList l = (tokensList l).getLast?
  | [] => rfl
  | s :: rest => by
      rw [lastTokenList, tokensList, getLast?_append_match,
        last_token_eq_getLast s, lastTokenList_eq_getLast rest]
      cases (tokensList rest).getLast? <;> rfl

end

theorem take_append_left {α : Type} (xs ys : List α) (a : Nat) (h : a ≤ xs.length) :
    (xs ++ ys).take a = xs.take a := by
  rw [List.take_append_eq_append_take, Nat.sub_eq_zero_of_le h]
  simp

theorem drop_append_right {α : Type} (xs ys : List α) (d : Nat) (h : xs.length ≤ d) :
    (xs ++ ys).drop d = ys.drop (d - xs.length) := by
  rw [List.drop_append_eq_append_drop, List.drop_eq_nil_of_le h]
  simp

theorem split_three (xs : List Char) (a b : Nat) (h : a + b ≤ xs.length) :
    xs = xs.take a ++ (xs.drop a).take (xs.length - b - a)
        ++ xs.drop (xs.length - b) := by
  have h1 : (xs.drop a).take (xs.length - b - a) = (xs.take (xs.length - b)).drop a := by
    rw [List.drop_take]
  have h2 : (xs.take (xs.length - b)).take a = xs.take a := by
    rw [List.take_take, Nat.min_eq_left (by omega)]
  calc xs = xs.take (xs.length - b) ++ xs.drop (xs.length - b) := by
        rw [List.take_append_drop]
    _ = ((xs.take (xs.length - b)).take a ++ (xs.take (xs.length - b)).drop a)
        ++ xs.drop (xs.length - b) := by
          rw [List.take_append_drop, List.take_append_drop, List.take_append_drop]
    _ = xs.take a ++ (xs.drop a).take (xs.length - b - a)
        ++ xs.drop (xs.length - b) := by rw [h1, h2]

theorem text_trimmed_split (e : GreenElement) (f l : GreenToken)
    (hf : e.first_token = some f) (hl : e.last_token = some l)
    (hab : leadingLen f + trailingLen l ≤ e.text.length)
    (h2 : e.text.take (leadingLen f) = leadingText f)
    (h3 : e.text.drop (e.text.length - trailingLen l) = trailingText l) :
    e.text = leadingText f ++ e.text_trimmed ++ trailingText l := by
  have hso : trimmedStartOffset e = leadingLen f := by
    simp [trimmedStartOffset, hf]
  have hec : trimmedEndCut e = trailingLen l := by
    simp [trimmedEndCut, hl]
  rw [← h2, ← h3]
  unfold GreenElement.text_trimmed
  rw [hso, hec, textLen_eq_length e]
  exact split_three e.text (leadingLen f) (trailingLen l) hab

/-- C2: for every node with at least one descendant token, `text_trimmed()`
equals `text()` with exactly the first descendant token's leading trivia and
the last descendant token's trailing trivia removed, and nothing else
removed; all interior trivia remains included.  Stated as the exact
three-way decomposition of the full text.  The well-formedness hypothesis
is the builder precondition of spec.md section 6: each token's trivia piece
lengths fit inside its own text. -/
theorem c2_trim_law (e : GreenElement) (f l : GreenToken)
    (hf : e.first_token = some f) (hl : e.last_token = some l)
    (hwf : ∀ t ∈ e.tokens, leadingLen t + trailingLen t ≤ t.text.length) :
    e.text = leadingText f ++ e.text_trimmed ++ trailingText l := by
  have hts : e.tokens.head? = some f := by rw [← first_token_eq_head]; exact hf
  have htl : e.tokens.getLast? = some l := by rw [← last_token_eq_getLast]; exact hl
  have htext : e.text = concatTexts e.tokens := text_eq_concatTexts e
  obtain ⟨rest, hrest⟩ : ∃ rest, e.tokens = f :: rest := by
    cases hets : e.tokens with
    | nil => rw [hets] at hts; simp at hts
    | cons x xs =>
        rw [hets] at hts
        simp at hts
        exact ⟨xs, by rw [hts]⟩
  cases rest with
  | nil =>
      have hfl : l = f := by
        rw [hrest] at htl
        simp at htl
        exact htl.symm
      subst hfl
      have htext1 : e.text = l.text := by
        rw [htext, hrest]; simp [concatTexts]
      have hmem : l ∈ e.tokens := by rw [hrest]; simp
      have hab : leadingLen l + trailingLen l ≤ e.text.length := by
        rw [htext1]; exact hwf l hmem
      apply text_trimmed_split e l l hf hl hab
      · rw [htext1]; rfl
      · rw [htext1]; rfl
  | cons r rs =>
      obtain ⟨init, z, hz⟩ := (List.eq_nil_or_concat (r :: rs)).resolve_left (by simp)
      rw [List.concat_eq_append] at hz
      have hrest2 : e.tokens = (f :: init) ++ [z] := by rw [hrest, hz]; rfl
      have hzl : z = l := by
        rw [hrest2, List.getLast?_concat] at htl
        exact Option.some.inj htl
      subst hzl
      have htext2 : e.text = f.text ++ (concatTexts init ++ z.text) := by
        rw [htext, hrest2, concatTexts_append]
        simp [concatTexts]
      have hmf : f ∈ e.tokens := by rw [hrest]; simp
      have hmz : z ∈ e.tokens := by rw [hrest2]; simp
      have hwff := hwf f hmf
      have hwfz := hwf z hmz
      have ha : leadingLen f ≤ f.text.length := by omega
      have hb : trailingLen z ≤ z.text.length := by omega
      have hlen : e.text.length
          = f.text.length + ((concatTexts init).length + z.text.length) := by
        rw [htext2]; simp
      have hab : leadingLen f + trailingLen z ≤ e.text.length := by omega
      apply text_trimmed_split e f z hf hl hab
      · rw [htext2, take_append_left _ _ _ ha]; rfl
      · have hassoc : e.text = (f.text ++ concatTexts init) ++ z.text := by
          rw [htext2, List.append_assoc]
        rw [hassoc]
        rw [drop_append_right _ _ _ (by simp; omega)]
        unfold trailingText
        congr 1
        simp
        omega

/-- Modelled from the spec: a red cursor is computed on demand as (green
value reference, absolute start offset, optional parent cursor); spec.md
section 3 (cursor module absent from src). -/
inductive RedNode where
  | mk (green : GreenElement) (offset : Nat) (parent : Option RedNode)

/-- Green value wrapped by a red cursor. -/
def RedNode.green : RedNode → GreenElement
  | .mk g _ _ => g

/-- Absolute start offset of a red cursor. -/
def RedNode.offset : RedNode → Nat
  | .mk _ o _ => o

/-- Parent cursor of a red cursor, if any. -/
def RedNode.parent : RedNode → Option RedNode
  | .mk _ _ p => p

/-- Translated from api.rs `SyntaxNode::clone_subtree` (delegating to the
cursor layer, modelled from the spec): an independent parent-less,
zero-offset view of the same green subtree. -/
def RedNode.clone_subtree (r : RedNode) : RedNode := .mk r.green 0 none

/-- Text of a red node: its green subtree's text. -/
def RedNode.text (r : RedNode) : List Char := r.green.text

/-- Modelled from the spec: cursor `text_range` (api.rs
`SyntaxNode::text_range` delegates to it): the absolute range of the
node, as a (start, stop) pair of offsets. -/
def RedNode.text_range (r : RedNode) : Nat × Nat :=
  (r.offset, r.offset + r.green.textLen)

/-- Modelled from the spec: cursor `text_trimmed_range` (api.rs
`SyntaxNode::text_trimmed_range` delegates to it): the node range with the
first token's leading trivia cut from the start and the last token's
trailing trivia cut from the end. -/
def RedNode.text_trimmed_range (r : RedNode) : Nat × Nat :=
  (r.offset + trimmedStartOffset r.green,
   (r.offset + r.green.textLen) - trimmedEndCut r.green)

/-- Length of a (start, stop) text range. -/
def rangeLen (range : Nat × Nat) : Nat := range.2 - range.1

/-- Range containment as in `TextRange::contains_range`. -/
def rangeContains (outer inner : Nat × Nat) : Bool :=
  decide (outer.1 ≤ inner.1) && decide (inner.2 ≤ outer.2)

/-- First slot holding a node, scanning forward; `j` is the absolute index
of the list head. -/
def findNodeAux : List GreenElement → Nat → Option (Nat × GreenElement)
  | [], _ => none
  | s :: rest, j => if s.isNode then some (j, s) else findNodeAux rest (j + 1)

/-- Last slot holding a node, scanning the whole list; `j` is the absolute
index of the list head. -/
def findLastNodeAux : List GreenElement → Nat → Option (Nat × GreenElement)
  | [], _ => none
  | s :: rest, j =>
    match findLastNodeAux rest (j + 1) with
    | some r => some r
    | none => if s.isNode then some (j, s) else none

/-- Modelled from the spec: cursor `next_sibling` from the child in slot
`i` of `p` steps forward to the nearest following slot holding a node
(empty slots are skipped transparently, spec.md section 3 invariant 3;
tokens are not nodes, per the api.rs `SyntaxNodeChildren`/`next_sibling`
item types). Returns the found slot index and element. -/
def next_sibling (p : GreenElement) (i : Nat) : Option (Nat × GreenElement) :=
  findNodeAux (p.slots.drop (i + 1)) (i + 1)

/-- Modelled from the spec: cursor `prev_sibling`, the nearest preceding
slot of `p` before index `i` holding a node. -/
def prev_sibling (p : GreenElement) (i : Nat) : Option (Nat × GreenElement) :=
  findLastNodeAux (p.slots.take i) 0

/-- Children collected by chaining first-child/next-sibling steps, with
fuel bounding the number of steps. -/
def collectFrom (slots : List GreenElement) : Nat → Nat → List GreenElement
  | _, 0 => []
  | i, fuel + 1 =>
    match findNodeAux (slots.drop i) i with
    | none => []
    | some (j, e) => e :: collectFrom slots (j + 1) fuel

/-- Modelled from the spec: cursor `children()` (api.rs
`SyntaxNodeChildren` yields `SyntaxNode` items only): iterate the node
children in positional order by sibling stepping. -/
def childrenOf (p : GreenElement) : List GreenElement :=
  collectFrom p.slots 0 p.slots.length

/-- Modelled from the spec: cursor `children_with_tokens` yields the
non-empty slots in positional order. -/
def children_with_tokens (p : GreenElement) : List GreenElement :=
  p.slots.filter (fun s => !s.isEmptySlot)

/-- Modelled from the spec: cursor `first_child_or_token`, the first
non-empty slot. -/
def first_child_or_token (p : GreenElement) : Option GreenElement :=
  (children_with_tokens p).head?

/-- Modelled from the spec: cursor `last_child_or_token`, the last
non-empty slot. -/
def last_child_or_token (p : GreenElement) : Option GreenElement :=
  (children_with_tokens p).getLast?

/-- Translated from api.rs `SyntaxList`: a typed list view over an
optional underlying list node. -/
structure SyntaxList where
  list : Option GreenElement
deriving DecidableEq

/-- Translated from api.rs `SyntaxList::len`: the length of the underlying
green node's slot list (zero for the absent-list placeholder). -/
def SyntaxList.len (l : SyntaxList) : Nat :=
  match l.list with
  | some n => n.slots.length
  | none => 0

/-- Translated from api.rs `SyntaxList::is_empty`. -/
def SyntaxList.is_empty (l : SyntaxList) : Bool := l.len == 0

/-- Translated from api.rs `SyntaxList::first`. -/
def SyntaxList.first (l : SyntaxList) : Option GreenElement :=
  match l.list with
  | some n => first_child_or_token n
  | none => none

/-- Translated from api.rs `SyntaxList::last`. -/
def SyntaxList.last (l : SyntaxList) : Option GreenElement :=
  match l.list with
  | some n => last_child_or_token n
  | none => none

/-- Translated from api.rs `SyntaxList::iter`, which forwards to
`children_with_tokens`. -/
def SyntaxList.iter (l : SyntaxList) : List GreenElement :=
  match l.list with
  | some n => children_with_tokens n
  | none => []

/-- Translated from api.rs `SyntaxNode::into_list`: succeeds exactly when
the node's kind is the grammar's reserved list kind. -/
def into_list (listKind : Nat) (n : GreenElement) : Option SyntaxList :=
  if n.kindOf = some listKind then some ⟨some n⟩ else none

/-- Modelled from the spec: cursor `SyntaxTrivia` view, one side's
contiguous trivia blob together with its absolute start offset. -/
structure STrivia where
  blob : List Char
  offset : Nat

/-- Translated from api.rs `SyntaxTriviaPiece`: a piece view = the whole
trivia view, the piece's absolute offset, and its descriptor. -/
structure STriviaPiece where
  raw : STrivia
  offset : Nat
  trivia : TriviaPiece

/-- Translated from api.rs `SyntaxTriviaPiece::text`: slice the owning
blob at the accumulated offset, for the piece's length. -/
def STriviaPiece.text (p : STriviaPiece) : List Char :=
  (p.raw.blob.drop (p.offset - p.raw.offset)).take p.trivia.text_len

/-- Translated from api.rs `SyntaxTriviaPiece::text_len`. -/
def STriviaPiece.text_len (p : STriviaPiece) : Nat := p.trivia.text_len

/-- Translated from api.rs `SyntaxTriviaPiece::text_range`. -/
def STriviaPiece.text_range (p : STriviaPiece) : Nat × Nat :=
  (p.offset, p.offset + p.trivia.text_len)

/-- Translated from api.rs `SyntaxTriviaPiece::as_whitespace`: exact-tag
narrowing cast. -/
def STriviaPiece.as_whitespace (p : STriviaPiece) : Option STriviaPiece :=
  match p.trivia with
  | .whitespace _ => some p
  | _ => none

/-- Translated from api.rs `SyntaxTriviaPiece::as_comments`: exact-tag
narrowing cast. -/
def STriviaPiece.as_comments (p : STriviaPiece) : Option STriviaPiece :=
  match p.trivia with
  | .comments _ => some p
  | _ => none

/-- Modelled from the spec: the trivia pieces iterator anchors successive
piece views at increasing offsets, each advanced by the previous piece's
length. -/
def piecesAux (raw : STrivia) : List TriviaPiece → Nat → List STriviaPiece
  | [], _ => []
  | p :: rest, off => ⟨raw, off, p⟩ :: piecesAux raw rest (off + p.text_len)

/-- Modelled from the spec: the leading trivia view of a token whose own
text starts at absolute offset `tokOffset`; its blob is the leading
prefix of the token text (spec.md section 3, invariant 5). -/
def leading_trivia (t : GreenToken) (tokOffset : Nat) : STrivia :=
  ⟨t.text.take (leadingLen t), tokOffset⟩

/-- Piece views of a token's leading trivia. -/
def leadingPieces (t : GreenToken) (tokOffset : Nat) : List STriviaPiece :=
  piecesAux (leading_trivia t tokOffset) t.leading tokOffset

/-- Preorder walk events over slots, carrying the slot index and absolute
offset (cursor `preorder_slots`, modelled from the spec). -/
inductive WalkEv where
  | enter (index : Nat) (offset : Nat) (slot : GreenElement)
  | leave (index : Nat) (offset : Nat) (slot : GreenElement)

mutual

/-- Modelled from the spec: preorder slot events of one slot: enter it,
walk its slots, leave it. -/
def slotEvents : Nat → Nat → GreenElement → List WalkEv
  | i, off, .node k slots =>
      .enter i off (.node k slots)
        :: (slotsEvents 0 off slots ++ [.leave i off (.node k slots)])
  | i, off, .token t => [.enter i off (.token t), .leave i off (.token t)]
  | i, off, .empty => [.enter i off .empty, .leave i off .empty]

/-- Preorder slot events of a slot list starting at slot index `i` and
absolute offset `off`. -/
def slotsEvents : Nat → Nat → List GreenElement → List WalkEv
  | _, _, [] => []
  | i, off, s :: rest => slotEvents i off s ++ slotsEvents (i + 1) (off + s.textLen) rest

end

/-- What a dump line shows after the slot index: kind and range for a
node or token, or the literal `(empty)` marker for an empty slot. -/
inductive DumpBody where
  | element (kind : Nat) (range : Nat × Nat)
  | emptyMarker

/-- One line of the alternate debug dump: the indentation level (rendered
as two spaces per unit), the slot index, and the body. -/
structure DumpLine where
  indent : Int
  index : Nat
  body : DumpBody

/-- Body printed for a slot at absolute offset `off`. -/
def bodyFor (off : Nat) : GreenElement → DumpBody
  | .node k slots => .element k (off, off + textLenList slots)
  | .token t => .element t.kind (off, off + t.text.length)
  | .empty => .emptyMarker

/-- Translated from the api.rs alternate `Debug` impl for `SyntaxNode`:
on `Enter` print one line at the current level and increment it, on
`Leave` decrement it. -/
def dumpStep (st : List DumpLine × Int) (ev : WalkEv) : List DumpLine × Int :=
  match ev with
  | .enter i off s => (st.1 ++ [⟨st.2, i, bodyFor off s⟩], st.2 + 1)
  | .leave _ _ _ => (st.1, st.2 - 1)

/-- Translated from the api.rs alternate `Debug` impl for `SyntaxNode`:
fold all preorder slot events starting with no lines and level 0; the
final level is what the closing `assert_eq!(level, 0)` checks. -/
def dump (root : GreenElement) : List DumpLine × Int :=
  (slotEvents 0 0 root).foldl dumpStep ([], 0)

mutual

/-- Number of slots in a subtree, the slot itself included. -/
def slotCount : GreenElement → Nat
  | .node _ slots => 1 + slotCountList slots
  | .token _ => 1
  | .empty => 1

/-- Total slot count of a slot list. -/
def slotCountList : List GreenElement → Nat
  | [] => 0
  | s :: rest => slotCount s + slotCountList rest

end

theorem findNodeAux_spec (l : List GreenElement) (j k : Nat) (e : GreenElement)
    (h : findNodeAux l j = some (k, e)) :
    j ≤ k ∧ k - j < l.length ∧ l[k - j]? = some e ∧ e.isNode = true ∧
      (∀ (m : Nat) (s : GreenElement), m < k - j → l[m]? = some s → s.isNode = false) := by
  induction l generalizing j with
  | nil => simp [findNodeAux] at h
  | cons s rest ih =>
      rw [findNodeAux] at h
      cases hs : s.isNode with
      | true =>
          rw [hs] at h
          simp at h
          obtain ⟨hk, he⟩ := h
          subst hk
          refine ⟨Nat.le_refl j, by simp, ?_, ?_, ?_⟩
          · simp [he]
          · rw [← he]; exact hs
          · intro m s' hm hms
            exact absurd hm (by omega)
      | false =>
          rw [hs] at h
          simp at h
          obtain ⟨h1, h2, h3, h4, h5⟩ := ih (j + 1) h
          have hjk : j ≤ k := by omega
          have hkj : k - j = (k - (j + 1)) + 1 := by omega
          refine ⟨hjk, by simp; omega, ?_, h4, ?_⟩
          · rw [hkj, List.getElem?_cons_succ]; exact h3
          · intro m s' hm hms
            cases m with
            | zero =>
                rw [List.getElem?_cons_zero] at hms
                rw [← Option.some.inj hms]
                exact hs
            | succ m' =>
                rw [List.getElem?_cons_succ] at hms
                exact h5 m' s' (by omega) hms

theorem findNodeAux_none_filter (l : List GreenElement) (j : Nat)
    (h : findNodeAux l j = none) : l.filter GreenElement.isNode = [] := by
  induction l generalizing j with
  | nil => rfl
  | cons s rest ih =>
      rw [findNodeAux] at h
      cases hs : s.isNode with
      | true => rw [hs] at h; simp at h
      | false =>
          rw [hs] at h
          simp at h
          rw [List.filter_cons_of_neg (by simp [hs])]
          exact ih (j + 1) h

theorem findNodeAux_some_filter (l : List GreenElement) (j k : Nat) (e : GreenElement)
    (h : findNodeAux l j = some (k, e)) :
    l.filter GreenElement.isNode
      = e :: (l.drop (k - j + 1)).filter GreenElement.isNode := by
  induction l generalizing j with
  | nil => simp [findNodeAux] at h
  | cons s rest ih =>
      rw [findNodeAux] at h
      cases hs : s.isNode with
      | true =>
          rw [hs] at h
          simp at h
          obtain ⟨hk, he⟩ := h
          subst hk
          subst he
          rw [List.filter_cons_of_pos hs]
          simp
      | false =>
          rw [hs] at h
          simp at h
          have h1 := (findNodeAux_spec rest (j + 1) k e h).1
          rw [List.filter_cons_of_neg (by simp [hs])]
          rw [ih (j + 1) h]
          have hkj : k - j + 1 = (k - (j + 1) + 1) + 1 := by omega
          rw [hkj, List.drop_succ_cons]

theorem collectFrom_eq_filter (slots : List GreenElement) :
    ∀ fuel i, slots.length ≤ i + fuel →
      collectFrom slots i fuel = (slots.drop i).filter GreenElement.isNode := by
  intro fuel
  induction fuel with
  | zero =>
      intro i h
      rw [collectFrom, List.drop_eq_nil_of_le (by omega)]
      rfl
  | succ fuel ih =>
      intro i h
      rw [collectFrom]
      cases hfind : findNodeAux (slots.drop i) i with
      | none => rw [findNodeAux_none_filter _ _ hfind]
      | some je =>
          obtain ⟨j, e⟩ := je
          obtain ⟨h1, h2, _, _, _⟩ := findNodeAux_spec _ _ _ _ hfind
          have hlen : (slots.drop i).length = slots.length - i := by simp
          rw [findNodeAux_some_filter _ _ _ _ hfind]
          show e :: collectFrom slots (j + 1) fuel = _
          congr 1
          rw [List.drop_drop]
          have harg : i + (j - i + 1) = j + 1 := by omega
          rw [harg]
          exact ih (j + 1) (by omega)

theorem childrenOf_eq_filter (p : GreenElement) :
    childrenOf p = p.slots.filter GreenElement.isNode := by
  unfold childrenOf
  rw [collectFrom_eq_filter p.slots p.slots.length 0 (by omega)]
  rfl

theorem findLastNodeAux_none (l : List GreenElement) : ∀ (j : Nat),
    findLastNodeAux l j = none →
    ∀ (m : Nat) (s : GreenElement), l[m]? = some s → s.isNode = false := by
  induction l with
  | nil => intro j h m s hms; simp at hms
  | cons x rest ih =>
      intro j h m s hms
      rw [findLastNodeAux] at h
      cases hr : findLastNodeAux rest (j + 1) with
      | some r => rw [hr] at h; simp at h
      | none =>
          rw [hr] at h
          cases hx : x.isNode with
          | true => rw [hx] at h; simp at h
          | false =>
              cases m with
              | zero =>
                  rw [List.getElem?_cons_zero] at hms
                  rw [← Option.some.inj hms]
                  exact hx
              | succ m' =>
                  rw [List.getElem?_cons_succ] at hms
                  exact ih (j + 1) hr m' s hms

theorem findLastNodeAux_spec (l : List GreenElement) (j k : Nat) (e : GreenElement)
    (h : findLastNodeAux l j = some (k, e)) :
    j ≤ k ∧ k - j < l.length ∧ l[k - j]? = some e ∧ e.isNode = true ∧
      (∀ (m : Nat) (s : GreenElement), k - j < m → l[m]? = some s → s.isNode = false) := by
  induction l generalizing j with
  | nil => simp [findLastNodeAux] at h
  | cons x rest ih =>
      rw [findLastNodeAux] at h
      cases hr : findLastNodeAux rest (j + 1) with
      | some r =>
          rw [hr] at h
          simp at h
          subst h
          obtain ⟨h1, h2, h3, h4, h5⟩ := ih (j + 1) hr
          have hkj : k - j = (k - (j + 1)) + 1 := by omega
          refine ⟨by omega, by simp; omega, ?_, h4, ?_⟩
          · rw [hkj, List.getElem?_cons_succ]; exact h3
          · intro m s hm hms
            cases m with
            | zero => omega
            | succ m' =>
                rw [List.getElem?_cons_succ] at hms
                exact h5 m' s (by omega) hms
      | none =>
          rw [hr] at h
          cases hx : x.isNode with
          | true =>
              rw [hx] at h
              simp at h
              obtain ⟨hk, he⟩ := h
              subst hk
              refine ⟨Nat.le_refl j, by simp, by simp [he], by rw [← he]; exact hx, ?_⟩
              intro m s hm hms
              cases m with
              | zero => omega
              | succ m' =>
                  rw [List.getElem?_cons_succ] at hms
                  exact findLastNodeAux_none rest (j + 1) hr m' s hms

          | false => rw [hx] at h; simp at h

theorem next_sibling_spec (p : GreenElement) (i j : Nat) (e : GreenElement)
    (h : next_sibling p i = some (j, e)) :
    i < j ∧ p.slots[j]? = some e ∧ e.isNode = true ∧
      (∀ (m : Nat) (s : GreenElement), i < m → m < j → p.slots[m]? = some s → s.isNode = false) := by
  unfold next_sibling at h
  obtain ⟨h1, h2, h3, h4, h5⟩ := findNodeAux_spec _ _ _ _ h
  rw [List.getElem?_drop] at h3
  have harg : i + 1 + (j - (i + 1)) = j := by omega
  rw [harg] at h3
  refine ⟨by omega, h3, h4, ?_⟩
  intro m s hm hmj hms
  have := h5 (m - (i + 1)) s (by omega) ?_
  · exact this
  · rw [List.getElem?_drop]
    have : i + 1 + (m - (i + 1)) = m := by omega
    rw [this]
    exact hms

theorem prev_sibling_spec (p : GreenElement) (i j : Nat) (e : GreenElement)
    (h : prev_sibling p i = some (j, e)) :
    j < i ∧ p.slots[j]? = some e ∧ e.isNode = true ∧
      (∀ (m : Nat) (s : GreenElement), j < m → m < i → p.slots[m]? = some s → s.isNode = false) := by
  unfold prev_sibling at h
  obtain ⟨h1, h2, h3, h4, h5⟩ := findLastNodeAux_spec _ _ _ _ h
  rw [Nat.sub_zero] at h2 h3 h5
  have hji : j < i := by
    have := List.length_take i p.slots
    omega
  rw [List.getElem?_take, if_pos hji] at h3
  refine ⟨hji, h3, h4, ?_⟩
  intro m s hjm hmi hms
  refine h5 m s hjm ?_
  rw [List.getElem?_take, if_pos hmi]
  exact hms

theorem lines_mono (l : List WalkEv) : ∀ (st : List DumpLine × Int),
    ∃ suffix, (l.foldl dumpStep st).1 = st.1 ++ suffix := by
  induction l with
  | nil => intro st; exact ⟨[], by simp⟩
  | cons ev rest ih =>
      intro st
      rw [List.foldl_cons]
      obtain ⟨suf, hsuf⟩ := ih (dumpStep st ev)
      cases ev with
      | enter i off s =>
          exact ⟨⟨st.2, i, bodyFor off s⟩ :: suf, by rw [hsuf]; simp [dumpStep]⟩
      | leave i off s => exact ⟨suf, by rw [hsuf]; simp [dumpStep]⟩

mutual

theorem dump_slot_spec : (s : GreenElement) → ∀ (i off : Nat) (st : List DumpLine × Int),
    ((slotEvents i off s).foldl dumpStep st).2 = st.2 ∧
    ((slotEvents i off s).foldl dumpStep st).1.length = st.1.length + slotCount s
  | .node k slots => by
      intro i off st
      rw [slotEvents, List.foldl_cons, List.foldl_append, List.foldl_cons, List.foldl_nil]
      obtain ⟨h1, h2⟩ :=
        dump_slots_spec slots 0 off (dumpStep st (.enter i off (.node k slots)))
      rw [slotCount]
      constructor
      · simp only [dumpStep] at h1 ⊢
        rw [h1]
        omega
      · simp only [dumpStep] at h2 ⊢
        rw [h2]
        simp
        omega
  | .token t => by
      intro i off st
      rw [slotEvents, List.foldl_cons, List.foldl_cons, List.foldl_nil]
      simp [dumpStep, slotCount]
  | .empty => by
      intro i off st
      rw [slotEvents, List.foldl_cons, List.foldl_cons, List.foldl_nil]
      simp [dumpStep, slotCount]

theorem dump_slots_spec : (l : List GreenElement) → ∀ (i off : Nat) (st : List DumpLine × Int),
    ((slotsEvents i off l).foldl dumpStep st).2 = st.2 ∧
    ((slotsEvents i off l).foldl dumpStep st).1.length = st.1.length + slotCountList l
  | [] => by intro i off st; simp [slotsEvents, slotCountList]
  | s :: rest => by
      intro i off st
      rw [slotsEvents, List.foldl_append, slotCountList]
      obtain ⟨h1, h2⟩ := dump_slot_spec s i off st
      obtain ⟨h3, h4⟩ :=
        dump_slots_spec rest (i + 1) (off + s.textLen)
          ((slotEvents i off s).foldl dumpStep st)
      exact ⟨by rw [h3, h1], by rw [h4, h2]; omega⟩

end

theorem slotEvents_head (s : GreenElement) (i off : Nat) :
    ∃ tail, slotEvents i off s = .enter i off s :: tail := by
  cases s <;> exact ⟨_, rfl⟩

/-- C1: for every tree constructed through the builder using only
token/token_with_trivia leaf events, the root node's text() equals the
exact concatenation, in document order, of every descendant token's full
text, trivia included. -/
theorem c1_round_trip (evs : List BuildEvent) (root : GreenElement)
    (honly : ∀ ev ∈ evs, ev ≠ BuildEvent.missing)
    (hb : build evs [] = some root) :
    root.text = concatTexts root.tokens :=
  text_eq_concatTexts root

/-- Builder event stream for the C1 witness. -/
def c1Events : List BuildEvent :=
  [.startNode 0,
   .tokenWithTrivia 1 ("\n\t let \t\t".toList) [.whitespace 3] [.whitespace 3],
   .token 1 ("a".toList),
   .startNode 2,
   .tokenWithTrivia 1 ("; \t\t".toList) [] [.whitespace 3],
   .finishNode,
   .finishNode]

/-- The tree the C1 witness events build. -/
def c1Root : GreenElement :=
  .node 0
    [.token ⟨1, "\n\t let \t\t".toList, [.whitespace 3], [.whitespace 3]⟩,
     .token ⟨1, "a".toList, [], []⟩,
     .node 2 [.token ⟨1, "; \t\t".toList, [], [.whitespace 3]⟩]]

theorem c1_round_trip_witness : c1Root.text = concatTexts c1Root.tokens :=
  c1_round_trip c1Events c1Root (by decide) (by decide)

/-- First token of the C2 witness tree. -/
def c2Tok1 : GreenToken := ⟨1, "\n\t let \t\t".toList, [.whitespace 3], [.whitespace 3]⟩

/-- Middle token of the C2 witness tree. -/
def c2Tok2 : GreenToken := ⟨1, "a".toList, [], []⟩

/-- Last token of the C2 witness tree. -/
def c2Tok3 : GreenToken := ⟨1, "; \t\t".toList, [], [.whitespace 3]⟩

/-- The C2 witness tree, the api.rs `text_trimmed` doc example. -/
def c2Tree : GreenElement := .node 0 [.token c2Tok1, .token c2Tok2, .token c2Tok3]

theorem c2_trim_law_witness :
    c2Tree.text = leadingText c2Tok1 ++ c2Tree.text_trimmed ++ trailingText c2Tok3 :=
  c2_trim_law c2Tree c2Tok1 c2Tok3 (by decide) (by decide) (by decide)

/-- A node whose only slot holds a token: `children()` yields nothing, but
the non-empty slots are `[token]`. -/
def c3TokenNode : GreenElement := .node 0 [.token ⟨1, "a".toList, [], []⟩]

/-- C3 counterexample: the claim says iterating children() reproduces the
non-empty slots, but children() yields only node children; for a node
whose single slot holds a token the two sequences differ. -/
theorem c3_counterexample :
    ¬ (childrenOf c3TokenNode
        = c3TokenNode.slots.filter (fun s => !s.isEmptySlot)) := by
  decide

/-- C3 (amended): for every node, iterating children() from first to last
yields exactly the node-holding slots, in positional order; and whenever
next_sibling (or prev_sibling) returns, it returns a slot holding a node
— never a slot built via missing() — namely the nearest following (or
preceding) node slot, stepping over empty and token slots. -/
theorem c3_missing_skip (p : GreenElement) :
    childrenOf p = p.slots.filter GreenElement.isNode ∧
    (∀ (i j : Nat) (e : GreenElement), next_sibling p i = some (j, e) →
      i < j ∧ p.slots[j]? = some e ∧ e.isNode = true ∧
      (∀ (m : Nat) (s : GreenElement),
        i < m → m < j → p.slots[m]? = some s → s.isNode = false)) ∧
    (∀ (i j : Nat) (e : GreenElement), prev_sibling p i = some (j, e) →
      j < i ∧ p.slots[j]? = some e ∧ e.isNode = true ∧
      (∀ (m : Nat) (s : GreenElement),
        j < m → m < i → p.slots[m]? = some s → s.isNode = false)) :=
  ⟨childrenOf_eq_filter p,
   fun i j e hn => next_sibling_spec p i j e hn,
   fun i j e hp => prev_sibling_spec p i j e hp⟩

/-- First child of the C3 witness list node. -/
def c3ChildA : GreenElement := .node 2 [.token ⟨3, "a".toList, [], []⟩]

/-- Second child of the C3 witness list node. -/
def c3ChildB : GreenElement := .node 2 [.token ⟨3, "b".toList, [], []⟩]

/-- Last child of the C3 witness list node. -/
def c3ChildC : GreenElement := .node 2 [.token ⟨3, "c".toList, [], []⟩]

/-- The C3 witness: three child nodes with the third slot built via
missing(), as in the api.rs `siblings` test. -/
def c3ListNode : GreenElement := .node 0 [c3ChildA, c3ChildB, .empty, c3ChildC]

theorem c3_missing_skip_witness :
    childrenOf c3ListNode = c3ListNode.slots.filter GreenElement.isNode ∧
    (1 < 3 ∧ c3ListNode.slots[3]? = some c3ChildC ∧ c3ChildC.isNode = true ∧
      (∀ (m : Nat) (s : GreenElement),
        1 < m → m < 3 → c3ListNode.slots[m]? = some s → s.isNode = false)) ∧
    (0 < 1 ∧ c3ListNode.slots[0]? = some c3ChildA ∧ c3ChildA.isNode = true ∧
      (∀ (m : Nat) (s : GreenElement),
        0 < m → m < 1 → c3ListNode.slots[m]? = some s → s.isNode = false)) :=
  ⟨(c3_missing_skip c3ListNode).1,
   (c3_missing_skip c3ListNode).2.1 1 3 c3ChildC (by decide),
   (c3_missing_skip c3ListNode).2.2 1 0 c3ChildA (by decide)⟩

/-- C4: for every node wrapped as a SyntaxList, len() equals exactly the
number of slots recorded at construction, empty slots produced by
missing() included, regardless of how many slots hold tokens versus
nodes. -/
theorem c4_list_len (listKind k : Nat) (slots : List GreenElement)
    (l : SyntaxList)
    (hl : into_list listKind (GreenElement.node k slots) = some l) :
    l.len = slots.length := by
  unfold into_list at hl
  by_cases hk : (GreenElement.node k slots).kindOf = some listKind
  · rw [if_pos hk] at hl
    rw [← Option.some.inj hl]
    rfl
  · rw [if_neg hk] at hl
    exact absurd hl (by simp)

/-- Slots (one node, one empty, one token) for the C4 witness. -/
def c4Slots : List GreenElement :=
  [.node 1 [], .empty, .token ⟨2, ",".toList, [], []⟩]

theorem c4_list_len_witness :
    SyntaxList.len ⟨some (GreenElement.node 0 c4Slots)⟩ = c4Slots.length :=
  c4_list_len 0 0 c4Slots ⟨some (GreenElement.node 0 c4Slots)⟩ (by decide)

/-- Modelled from the spec: the backing of mutable-mode trees
(spec.md section 4.4 and design note 2): interior-mutable cells addressed
by id, each holding the current green root of one clone_for_update
family; `nextId` is the next fresh cell. -/
structure Store where
  cells : Nat → GreenElement
  nextId : Nat

/-- Modelled from the spec: a tree handle is either an immutable value
view (the default mode: it carries its green value directly) or a
mutable-mode reference into a store cell. -/
inductive Handle where
  | immutableH (green : GreenElement)
  | mutableH (cell : Nat)

/-- The green tree a handle currently denotes, given the store. -/
def Handle.readGreen (st : Store) : Handle → GreenElement
  | .immutableH g => g
  | .mutableH c => st.cells c

/-- A red cursor viewed as a handle: red cursors wrap immutable green
values directly. -/
def RedNode.asHandle (r : RedNode) : Handle := .immutableH r.green

/-- Modelled from the spec: `clone_for_update` deep-copies the denoted
tree into fresh interior-mutable backing and returns a mutable handle to
that copy (spec.md section 4.4). -/
def clone_for_update (st : Store) (h : Handle) : Handle × Store :=
  (.mutableH st.nextId,
   ⟨fun c => if c = st.nextId then h.readGreen st else st.cells c, st.nextId + 1⟩)

/-- Modelled from the spec: `detach` of the child in slot `i`: the slot
is emptied for a fixed-arity parent and removed for a list-kind parent
(spec.md section 4.4). -/
def detachSlot (listKind : Nat) : GreenElement → Nat → GreenElement
  | .node k slots, i =>
      if k = listKind then .node k (slots.eraseIdx i) else .node k (slots.set i .empty)
  | .token t, _ => .token t
  | .empty, _ => .empty

/-- Modelled from the spec: `splice_children` replaces the contiguous run
of slots `[start, stop)` with a new ordered sequence (spec.md
section 4.4). -/
def spliceSlots (slots : List GreenElement) (start stop : Nat)
    (new : List GreenElement) : List GreenElement :=
  slots.take start ++ new ++ slots.drop stop

/-- `splice_children` on a green node. -/
def spliceNode : GreenElement → Nat → Nat → List GreenElement → GreenElement
  | .node k slots, a, b, new => .node k (spliceSlots slots a b new)
  | .token t, _, _, _ => .token t
  | .empty, _, _, _ => .empty

/-- One mutation of a mutable-mode tree through its handle: a detach or a
splice_children applied to the tree in one store cell. -/
inductive MutStep where
  | detachStep (listKind : Nat) (cell : Nat) (slot : Nat)
  | spliceStep (cell : Nat) (start stop : Nat) (new : List GreenElement)

/-- Apply one mutation step to the store: the named cell's green root is
replaced by the edited tree; nothing else changes. -/
def applyMutStep (st : Store) : MutStep → Store
  | .detachStep lk c i =>
      ⟨fun c' => if c' = c then detachSlot lk (st.cells c) i else st.cells c', st.nextId⟩
  | .spliceStep c a b new =>
      ⟨fun c' => if c' = c then spliceNode (st.cells c) a b new else st.cells c', st.nextId⟩

/-- Apply a sequence of mutation steps in order. -/
def applyMutations (st : Store) : List MutStep → Store
  | [] => st
  | step :: rest => applyMutations (applyMutStep st step) rest

/-- C5: clone_subtree() returns a node whose parent() is none, whose
text_range() starts at offset zero, and whose green value — hence its
text and structure (kinds and slots, recursively) — equals the source
node's; and subsequent mutation of the source via its mutable-mode
handles leaves the clone unchanged: after clone_for_update of the source
and any sequence of detach/splice_children steps applied through any
handles, the clone still denotes exactly the source's pre-mutation green
tree. -/
theorem c5_clone_subtree (r : RedNode) :
    r.clone_subtree.parent = none ∧
    r.clone_subtree.offset = 0 ∧
    r.clone_subtree.text_range.1 = 0 ∧
    r.clone_subtree.green = r.green ∧
    r.clone_subtree.text = r.text ∧
    (∀ (st : Store) (muts : List MutStep),
      Handle.readGreen
        (applyMutations (clone_for_update st r.asHandle).2 muts)
        r.clone_subtree.asHandle
      = Handle.readGreen st r.asHandle) :=
  ⟨rfl, rfl, rfl, rfl, rfl, fun _ _ => rfl⟩

/-- C6: into_list() returns some if and only if the node's kind equals
the reserved list kind. -/
theorem c6_into_list_iff (listKind k : Nat) (slots : List GreenElement) :
    (into_list listKind (GreenElement.node k slots)).isSome = true ↔ k = listKind := by
  unfold into_list
  by_cases hk : k = listKind
  · subst hk
    simp [GreenElement.kindOf]
  · simp [GreenElement.kindOf, hk]

/-- The token of the C7 scenario. -/
def c7Token : GreenToken :=
  ⟨1, "\n\t /**/let \t\t".toList, [.whitespace 3, .comments 4], [.whitespace 3]⟩

/-- C7: building a token with text `"\n\t /**/let \t\t"`, leading pieces
`[Whitespace 3, Comments 4]` and trailing pieces `[Whitespace 3]` yields
exactly 2 leading trivia pieces with texts `"\n\t "` and `"/**/"`, ranges
`[0,3)` and `[3,7)`; as_whitespace succeeds exactly on the first and
as_comments exactly on the second. -/
theorem c7_trivia_pieces :
    (leadingPieces c7Token 0).length = 2 ∧
    (leadingPieces c7Token 0).map STriviaPiece.text
      = ["\n\t ".toList, "/**/".toList] ∧
    (leadingPieces c7Token 0).map STriviaPiece.text_range = [(0, 3), (3, 7)] ∧
    (leadingPieces c7Token 0).map (fun p => p.as_whitespace.isSome) = [true, false] ∧
    (leadingPieces c7Token 0).map (fun p => p.as_comments.isSome) = [false, true] := by
  decide

/-- C8: for every node, the length of text_range() equals the length of
text(), and text_trimmed_range() is contained within text_range(). -/
theorem c8_range_law (r : RedNode) :
    rangeLen r.text_range = r.text.length ∧
    rangeContains r.text_range r.text_trimmed_range = true := by
  constructor
  · unfold rangeLen RedNode.text_range RedNode.text
    simp [textLen_eq_length r.green]
  · unfold rangeContains RedNode.text_range RedNode.text_trimmed_range
    simp only [Bool.and_eq_true, decide_eq_true_eq]
    constructor <;> omega

/-- C9: the alternate debug dump prints one line per slot in preorder —
each line records the slot index and either the kind and range of the
node/token or the empty-slot marker, at an indent equal to the current
depth (rendered two spaces per unit) — and the tracked depth balances
back to exactly zero when the dump completes, so the closing assertion
never fails; the first line is the root at index 0, indent 0. -/
theorem c9_debug_dump (root : GreenElement) :
    (dump root).2 = 0 ∧
    (dump root).1.length = slotCount root ∧
    (dump root).1.head? = some ⟨0, 0, bodyFor 0 root⟩ := by
  have hspec := dump_slot_spec root 0 0 ([], 0)
  refine ⟨hspec.1, by simpa using hspec.2, ?_⟩
  obtain ⟨tail, htail⟩ := slotEvents_head root 0 0
  unfold dump
  rw [htail, List.foldl_cons]
  obtain ⟨suf, hsuf⟩ := lines_mono tail (dumpStep ([], 0) (.enter 0 0 root))
  rw [hsuf]
  simp [dumpStep]

/-- C10: a SyntaxList wrapping a list node all of whose slots were built
via missing() has len() equal to the positive slot count (so is_empty()
is false), yet first() and last() return none and iter() yields no
elements; in general iter() yields exactly the non-empty slots, so its
count is at most — and here strictly less than — len(). -/
theorem c10_all_missing_list (listKind k : Nat) (slots : List GreenElement)
    (l : SyntaxList)
    (hl : into_list listKind (GreenElement.node k slots) = some l)
    (hall : ∀ s ∈ slots, s.isEmptySlot = true)
    (hpos : 0 < slots.length) :
    l.len = slots.length ∧
    l.is_empty = false ∧
    l.first = none ∧
    l.last = none ∧
    l.iter = [] ∧
    l.iter.length < l.len ∧
    (∀ (m : SyntaxList), m.iter.length ≤ m.len) := by
  have hlval : l = ⟨some (GreenElement.node k slots)⟩ := by
    unfold into_list at hl
    by_cases hk : (GreenElement.node k slots).kindOf = some listKind
    · rw [if_pos hk] at hl
      exact (Option.some.inj hl).symm
    · rw [if_neg hk] at hl
      exact absurd hl (by simp)
  subst hlval
  have hiter : children_with_tokens (GreenElement.node k slots) = [] := by
    unfold children_with_tokens
    rw [List.filter_eq_nil_iff]
    intro s hs
    simp [hall s hs]
  refine ⟨rfl, ?_, ?_, ?_, hiter, ?_, ?_⟩
  · have hlen0 : SyntaxList.len ⟨some (GreenElement.node k slots)⟩ = slots.length := rfl
    unfold SyntaxList.is_empty
    rw [hlen0]
    cases hsl : slots.length with
    | zero => rw [hsl] at hpos; exact absurd hpos (by omega)
    | succ n => rfl
  · simp only [SyntaxList.first, first_child_or_token]
    rw [hiter]
    rfl
  · simp only [SyntaxList.last, last_child_or_token]
    rw [hiter]
    rfl
  · simp only [SyntaxList.iter, SyntaxList.len, GreenElement.slots]
    rw [hiter]
    simpa using hpos
  · intro m
    cases hm : m.list with
    | none => simp [SyntaxList.iter, SyntaxList.len, hm]
    | some n =>
        simp only [SyntaxList.iter, SyntaxList.len, hm, children_with_tokens]
        exact List.length_filter_le _ _

/-- Slots for the C10 witness: all three built via missing(). -/
def c10Slots : List GreenElement := [.empty, .empty, .empty]

theorem c10_all_missing_list_witness :
    SyntaxList.len ⟨some (GreenElement.node 0 c10Slots)⟩ = c10Slots.length ∧
    SyntaxList.is_empty ⟨some (GreenElement.node 0 c10Slots)⟩ = false ∧
    SyntaxList.first ⟨some (GreenElement.node 0 c10Slots)⟩ = none ∧
    SyntaxList.last ⟨some (GreenElement.node 0 c10Slots)⟩ = none ∧
    SyntaxList.iter ⟨some (GreenElement.node 0 c10Slots)⟩ = [] ∧
    (SyntaxList.iter ⟨some (GreenElement.node 0 c10Slots)⟩).length
      < SyntaxList.len ⟨some (GreenElement.node 0 c10Slots)⟩ ∧
    (∀ (m : SyntaxList), m.iter.length ≤ m.len) :=
  c10_all_missing_list 0 0 c10Slots ⟨some (GreenElement.node 0 c10Slots)⟩
    (by decide) (by decide) (by decide)

end Rowan
